import Mathlib

set_option linter.unusedSectionVars false

/-!
# Verification of the spectral-decay grain engine

Shallow embedding of the core of the `spectral-decay` repository:

* `src/ring_buffer.rs` — the fixed-capacity circular buffer (`RingBuffer<T>`),
* `src/fft_sizes.rs`   — the grain-size ladder generator (`generate_sizes`),
* `src/spectral_decay.rs` — the grain engine's scalar state (`SpectralDecay`),
  its `new`, `select_to_index`, `delay` and `set_params` operations, and the
  per-bin spectral-mutation rule of `process_buffers`.

Machine integers (`usize`) are modelled as `Nat` (all the arithmetic involved
stays far below `2^64`, and the source's `usize` subtractions are guarded by
assertions that appear here as hypotheses).  The handful of `f32` values that
influence control flow (parameter selects, the per-bin rule) are modelled by
an explicit `F32` type with IEEE-style `NaN`/infinity behaviour for the exact
operations the source performs on them; wherever the source computes with
finite floats on exactly representable values, the model uses exact rational
arithmetic (noted at each definition).
-/

set_option maxHeartbeats 1000000

namespace SpectralDecayModel

/-! ## A model of the `f32` values that steer control flow

Only the operations the source actually performs on these floats are
modelled: `!=` (`PartialEq`), `<` (`PartialOrd`), `/`, multiplication by a
`usize` count, `as usize` casts (saturating, truncating toward zero) and
`f32::max`.  Finite values carry an exact rational; float rounding of finite
results is not modelled (every concrete instance evaluated in this file is
exactly representable in `f32`, and every general theorem about these values
is insensitive to finite-value rounding).
-/

inductive F32 where
  | nan : F32
  | inf : F32
  | ninf : F32
  | val : ℚ → F32
  deriving DecidableEq

namespace F32

/-- Rust `f32` `!=` (IEEE): `NaN` is unequal to everything, including itself. -/
def fne : F32 → F32 → Bool
  | nan, _ => true
  | _, nan => true
  | inf, inf => false
  | inf, _ => true
  | _, inf => true
  | ninf, ninf => false
  | ninf, _ => true
  | _, ninf => true
  | val a, val b => decide (a ≠ b)

/-- Rust `f32` `<` (IEEE): any comparison with `NaN` is false. -/
def flt : F32 → F32 → Bool
  | nan, _ => false
  | _, nan => false
  | inf, _ => false
  | ninf, ninf => false
  | ninf, _ => true
  | _, ninf => false
  | val _, inf => true
  | val a, val b => decide (a < b)

/-- IEEE division for the sign combinations that can arise from the
nonnegative magnitudes and parameters in the source: `0/0 = NaN`,
`x/0 = ±inf` for `x ≠ 0`. -/
def fdiv : F32 → F32 → F32
  | nan, _ => nan
  | _, nan => nan
  | inf, inf => nan
  | inf, ninf => nan
  | ninf, inf => nan
  | ninf, ninf => nan
  | inf, val b => if b < 0 then ninf else inf
  | ninf, val b => if b < 0 then inf else ninf
  | val _, inf => val 0
  | val _, ninf => val 0
  | val a, val b =>
    if b = 0 then (if a = 0 then nan else if 0 < a then inf else ninf)
    else val (a / b)

/-- Source expression `select * num_grains as f32`: multiplication of an `f32` by a `usize`
count (IEEE: `±inf * 0 = NaN`).  Finite-result rounding is not modelled. -/
def fmulNat : F32 → ℕ → F32
  | nan, _ => nan
  | inf, n => if n = 0 then nan else inf
  | ninf, n => if n = 0 then nan else ninf
  | val q, n => val (q * n)

/-- Rust's saturating `f32 as usize` cast: `NaN ↦ 0`, negatives and `-inf ↦
0`, `+inf` and overlarge values saturate to `usize::MAX`, finite nonnegative
values truncate toward zero. -/
def toUsize : F32 → ℕ
  | nan => 0
  | inf => 2 ^ 64 - 1
  | ninf => 0
  | val q => if q < 0 then 0 else min (⌊q⌋.toNat) (2 ^ 64 - 1)

/-- Rust `f32::max`: if one argument is `NaN` the other is returned. -/
def fmax : F32 → F32 → F32
  | nan, b => b
  | a, nan => a
  | inf, _ => inf
  | _, inf => inf
  | ninf, b => b
  | a, ninf => a
  | val a, val b => val (max a b)

theorem fne_eq_false_iff (a b : F32) :
    fne a b = false ↔
      (a = b ∧ a ≠ nan) := by
  cases a <;> cases b <;> simp [fne]

end F32

/-- Helper: a value below `2*n` reduced mod `n` either stays put or loses one
`n`; lets `omega` take over all circular-index arithmetic. -/
theorem mod_two_cases {a n : ℕ} (h : a < 2 * n) :
    a % n = if n ≤ a then a - n else a := by
  split
  · rw [Nat.mod_eq_sub_mod (by omega), Nat.mod_eq_of_lt (by omega)]
  · exact Nat.mod_eq_of_lt (by omega)

/-- Helper: three-case reduction for values below `3*n`. -/
theorem mod_three_cases {a n : ℕ} (h : a < 3 * n) (h0 : 0 < n) :
    a % n = if 2 * n ≤ a then a - 2 * n else if n ≤ a then a - n else a := by
  split_ifs with h1 h2
  · rw [Nat.mod_eq_sub_mod (by omega), Nat.mod_eq_sub_mod (by omega),
      Nat.mod_eq_of_lt (by omega)]
    omega
  · rw [Nat.mod_eq_sub_mod (by omega), Nat.mod_eq_of_lt (by omega)]
  · exact Nat.mod_eq_of_lt (by omega)

/-- Helper: the source's strict wrap `if s > size { s - size }` is a mod-`size`
congruence, so it washes out under a following `% size`. -/
theorem wrap_add_mod {s n i : ℕ} (h : s ≤ 2 * n) :
    ((if s > n then s - n else s) + i) % n = (s + i) % n := by
  have h1 : (if s > n then s - n else s) % n = s % n := by
    split
    · exact (Nat.mod_eq_sub_mod (by omega)).symm
    · rfl
  exact Nat.ModEq.add_right i h1

/-! ## `src/ring_buffer.rs` — `RingBuffer<T>`

Faithful embedding: `data` is the backing `Vec<T>` as a `List`, `size`,
`start`, `len` the three `usize` fields.  `split_range` returns the source's
`(split, range)` as a triple `(split, rs, re)`; the head slice it denotes is
`data[split+rs .. split+re]` (the source indexes `range` into
`data.split_at(split).1`) and the tail slice is `data[0 .. split]`.
Assertions in the source become hypotheses of the theorems below.  The
`Default::default()` fill value is `default` from `Inhabited`.
-/

structure RingBuffer (T : Type) where
  data : List T
  size : ℕ
  start : ℕ
  len : ℕ

namespace RingBuffer

variable {T : Type} [Inhabited T]

/-- Constructor `RingBuffer::new(size, filled)`. -/
def new (T : Type) [Inhabited T] (size : ℕ) (filled : Bool) : RingBuffer T :=
  ⟨List.replicate size default, size, 0, if filled then size else 0⟩

/-- Helper `RingBuffer::end()` (private in the source). -/
def endIdx (rb : RingBuffer T) : ℕ :=
  let e := rb.start + rb.len
  if e ≥ rb.size then e - rb.size else e

/-- Method `RingBuffer::split_range(start, len)`; result `(split, rs, re)` stands for
the source's `(split, rs..re)`. -/
def splitRange (size s l : ℕ) : ℕ × ℕ × ℕ :=
  let e := s + l
  if e ≤ size then (0, s, e)
  else (e - size, s - (e - size), size - (e - size))

/-- The forward-iteration order of a `(head, tail)` slice pair: the head
slice `data[split+rs .. split+re]`, then the tail slice `data[0 .. split]`. -/
def readSlices (data : List T) (r : ℕ × ℕ × ℕ) : List T :=
  ((data.drop (r.1 + r.2.1)).take (r.2.2 - r.2.1)) ++ data.take r.1

/-- Overwrite `d[p .. p + s.length]` with `s` (a `copy_from_slice`). -/
def writeAt (d : List T) (p : ℕ) (s : List T) : List T :=
  d.take p ++ s ++ d.drop (p + s.length)

/-- Write `src` across a `(head, tail)` slice pair: the source's
`head.copy_from_slice(&src[..split]); tail.copy_from_slice(&src[split..])`
(where its `split` is the head length). -/
def writeSlices (data : List T) (r : ℕ × ℕ × ℕ) (src : List T) : List T :=
  writeAt (writeAt data (r.1 + r.2.1) (src.take (r.2.2 - r.2.1))) 0
    (src.drop (r.2.2 - r.2.1))

/-- Method `RingBuffer::remove(count)`; requires `count ≤ len`.  Note the source
wraps `start` only when `start > size` (strict), so `start = size` is
reachable. -/
def remove (rb : RingBuffer T) (count : ℕ) : RingBuffer T :=
  let s := rb.start + count
  { rb with start := if s > rb.size then s - rb.size else s,
            len := rb.len - count }

/-- Method `RingBuffer::copy_append(src)` (via `slices_append`); requires
`len + src.length ≤ size`. -/
def copy_append (rb : RingBuffer T) (src : List T) : RingBuffer T :=
  let r := splitRange rb.size rb.endIdx src.length
  { rb with data := writeSlices rb.data r src, len := rb.len + src.length }

/-- Method `RingBuffer::copy_remove(dst)` (via `slices_remove`); requires
`n ≤ len`.  Returns the updated buffer and the copied-out `dst` contents. -/
def copy_remove (rb : RingBuffer T) (n : ℕ) : RingBuffer T × List T :=
  let r := splitRange rb.size rb.start n
  let s := rb.start + n
  ({ rb with start := if s > rb.size then s - rb.size else s,
             len := rb.len - n },
   readSlices rb.data r)

/-- Method `RingBuffer::copy_replace(src, dst)` (via `slices_replace`); requires
`len = size`.  `n` is the common length of the optional `src`/`dst` slices.
Returns the updated buffer and the data copied out to `dst` (meaningful when
the source call passes `Some(dst)`).  A `None` source zero-fills the head and
tail slices with `Default::default()`, which is exactly `writeSlices` of
`replicate n default`. -/
def copy_replace (rb : RingBuffer T) (src : Option (List T)) (n : ℕ) :
    RingBuffer T × List T :=
  let r := splitRange rb.size rb.start n
  let out := readSlices rb.data r
  let newData :=
    match src with
    | some s => writeSlices rb.data r s
    | none => writeSlices rb.data r (List.replicate n default)
  let st := rb.start + n
  ({ rb with data := newData,
             start := if st > rb.size then st - rb.size else st }, out)

/-- Method `RingBuffer::split_range_relative(start)`; asserts `start < len` and
`-start ≤ len`. -/
def splitRangeRel (rb : RingBuffer T) (off : ℤ) : ℕ × ℕ × ℕ :=
  let count : ℕ := if 0 ≤ off then rb.len - off.toNat else (-off).toNat
  let s0 := rb.start + rb.len - count
  let s := if s0 > rb.size then s0 - rb.size else s0
  splitRange rb.size s count

/-- Method `RingBuffer::iter(start)`: forward sequence from the relative offset to
the end of the live region. -/
def iter (rb : RingBuffer T) (off : ℤ) : List T :=
  readSlices rb.data (rb.splitRangeRel off)

/-- Abstraction: the live region as a list, oldest first — element `i` lives
at physical index `(start + i) % size`. -/
def live (rb : RingBuffer T) : List T :=
  (List.range rb.len).map fun i => rb.data.getD ((rb.start + i) % rb.size) default

/-- Structural well-formedness.  `start ≤ size` (not `<`): the source's
wrap tests are strict (`start > size`), so `start = size` occurs. -/
def WF (rb : RingBuffer T) : Prop :=
  rb.data.length = rb.size ∧ rb.start ≤ rb.size ∧ rb.len ≤ rb.size ∧ 0 < rb.size

/-! ### Index lemmas for the slice machinery -/

theorem getD_of_lt (l : List T) (n : ℕ) (x : T) (h : n < l.length) :
    l.getD n x = l[n] := by
  simp [List.getD_eq_getElem?_getD, List.getElem?_eq_getElem h]

theorem length_writeAt {d : List T} {p : ℕ} {s : List T}
    (h : p + s.length ≤ d.length) : (writeAt d p s).length = d.length := by
  simp [writeAt]; omega

theorem getElem?_writeAt {d : List T} {p : ℕ} {s : List T}
    (h : p + s.length ≤ d.length) (j : ℕ) :
    (writeAt d p s)[j]? = if p ≤ j ∧ j < p + s.length then s[j - p]? else d[j]? := by
  have hlen : (d.take p).length = p := by simp [List.length_take]; omega
  unfold writeAt
  rw [List.append_assoc]
  rcases Nat.lt_or_ge j p with h1 | h1
  · rw [List.getElem?_append_left (by rw [hlen]; exact h1),
      List.getElem?_take_of_lt h1, if_neg (by omega)]
  · rw [List.getElem?_append_right (by rw [hlen]; exact h1), hlen]
    rcases Nat.lt_or_ge (j - p) s.length with h2 | h2
    · rw [List.getElem?_append_left h2, if_pos ⟨h1, by omega⟩]
    · rw [List.getElem?_append_right h2, List.getElem?_drop, if_neg (by omega)]
      congr 1
      omega

theorem getD_writeAt {d : List T} {p : ℕ} {s : List T}
    (h : p + s.length ≤ d.length) (j : ℕ) (x : T) :
    (writeAt d p s).getD j x =
      if p ≤ j ∧ j < p + s.length then s.getD (j - p) x else d.getD j x := by
  simp only [List.getD_eq_getElem?_getD, getElem?_writeAt h j]
  exact apply_ite (fun o : Option T => o.getD x) _ _ _

theorem readSlices_splitRange {data : List T} {s k size : ℕ}
    (hd : data.length = size) (hs : s ≤ size) (hk : k ≤ size) :
    readSlices data (splitRange size s k)
      = (List.range k).map fun i => data.getD ((s + i) % size) default := by
  unfold readSlices splitRange
  by_cases hcase : s + k ≤ size
  · rw [if_pos hcase]
    simp only
    apply List.ext_getElem
    · simp [List.length_take, List.length_drop, hd]; omega
    · intro i h1 h2
      simp only [List.getElem_map, List.getElem_range]
      have hi : i < k := by simpa using h2
      rw [mod_two_cases (by omega), if_neg (by omega),
        getD_of_lt _ _ _ (by omega)]
      rw [List.getElem_append_left
        (by simp [List.length_take, List.length_drop, hd]; omega)]
      simp [Nat.add_sub_cancel_left]
  · rw [if_neg hcase]
    simp only
    have ht : s + k - size + (s - (s + k - size)) = s := by omega
    have ht2 : size - (s + k - size) - (s - (s + k - size)) = size - s := by omega
    rw [ht, ht2]
    apply List.ext_getElem
    · simp [List.length_take, List.length_drop, hd]; omega
    · intro i h1 h2
      simp only [List.getElem_map, List.getElem_range]
      have hi : i < k := by simpa using h2
      have hlen1 : ((data.drop s).take (size - s)).length = size - s := by
        simp [List.length_take, List.length_drop, hd]
      by_cases h3 : i < size - s
      · rw [List.getElem_append_left (by rw [hlen1]; exact h3)]
        rw [mod_two_cases (by omega), if_neg (by omega),
          getD_of_lt _ _ _ (by omega)]
        simp
      · rw [List.getElem_append_right (by rw [hlen1]; omega)]
        rw [mod_two_cases (by omega), if_pos (by omega),
          getD_of_lt _ _ _ (by omega)]
        apply Option.some.inj
        rw [← List.getElem?_eq_getElem, ← List.getElem?_eq_getElem, hlen1,
          List.getElem?_take_of_lt (by omega)]
        congr 1
        omega

/-! ### Simulation lemmas: each operation tracked through `live` -/

theorem live_length (rb : RingBuffer T) : (live rb).length = rb.len := by
  simp [live]

theorem getD_take_of_lt (l : List T) (a m : ℕ) (x : T) (h : m < a) :
    (l.take a).getD m x = l.getD m x := by
  simp [List.getD_eq_getElem?_getD, List.getElem?_take_of_lt h]

theorem getD_drop (l : List T) (a m : ℕ) (x : T) :
    (l.drop a).getD m x = l.getD (a + m) x := by
  simp [List.getD_eq_getElem?_getD, List.getElem?_drop]

theorem splitRange_spec (size s l : ℕ) (hs : s ≤ size) (hl : l ≤ size) :
    (splitRange size s l).1 + (splitRange size s l).2.1 = s ∧
      (splitRange size s l).2.2 - (splitRange size s l).2.1 = min l (size - s) ∧
      (splitRange size s l).1 = l - min l (size - s) := by
  unfold splitRange
  by_cases h : s + l ≤ size <;> simp [h] <;> omega

theorem endIdx_eq (rb : RingBuffer T) :
    rb.endIdx = if rb.start + rb.len ≥ rb.size
      then rb.start + rb.len - rb.size else rb.start + rb.len := rfl

theorem endIdx_le (rb : RingBuffer T) (hs : rb.start ≤ rb.size)
    (hl : rb.len ≤ rb.size) : rb.endIdx ≤ rb.size := by
  rw [endIdx_eq]; split <;> omega

theorem endIdx_cases (rb : RingBuffer T) :
    (rb.start + rb.len < rb.size ∧ rb.endIdx = rb.start + rb.len) ∨
      (rb.size ≤ rb.start + rb.len ∧
        rb.endIdx = rb.start + rb.len - rb.size) := by
  rw [endIdx_eq]
  split
  · right; constructor <;> omega
  · left; constructor <;> omega

theorem endIdx_add_mod (rb : RingBuffer T) (m : ℕ) :
    (rb.endIdx + m) % rb.size = (rb.start + rb.len + m) % rb.size := by
  rw [endIdx_eq]
  split
  · rename_i h
    conv_rhs => rw [show rb.start + rb.len + m
      = rb.start + rb.len - rb.size + m + rb.size by omega]
    rw [Nat.add_mod_right]
  · rfl

/-- Core write lemma: `writeSlices` at `splitRange size s k` realises a wrapped
write of `src` starting at physical index `s`: positions `(s + j) % size`
(`j < k`) receive `src[j]`, all others are untouched. -/
theorem getD_writeSlices {data src : List T} {s size : ℕ}
    (hd : data.length = size) (hs : s ≤ size) (hL : src.length ≤ size) (j : ℕ) :
    (writeSlices data (splitRange size s src.length) src).getD j default =
      if s ≤ j ∧ j < s + min src.length (size - s) then src.getD (j - s) default
      else if j < src.length - min src.length (size - s) then
        src.getD (min src.length (size - s) + j) default
      else data.getD j default := by
  obtain ⟨hp, hh, ht⟩ := splitRange_spec size s src.length hs hL
  unfold writeSlices
  have hb1 : (splitRange size s src.length).1 + (splitRange size s src.length).2.1 +
      (src.take ((splitRange size s src.length).2.2 -
        (splitRange size s src.length).2.1)).length ≤
      data.length := by
    rw [hp, hh, hd]; simp [List.length_take]; omega
  have hb2 : 0 + (src.drop ((splitRange size s src.length).2.2 -
      (splitRange size s src.length).2.1)).length ≤
      (writeAt data ((splitRange size s src.length).1 +
        (splitRange size s src.length).2.1)
        (src.take ((splitRange size s src.length).2.2 -
          (splitRange size s src.length).2.1))).length := by
    rw [length_writeAt hb1, hd, hh]; simp [List.length_drop]; omega
  rw [getD_writeAt hb2 j, getD_writeAt hb1 j, hp, hh]
  simp only [List.length_take, List.length_drop, Nat.zero_add, Nat.sub_zero,
    Nat.zero_le, true_and]
  have hmin : min (min src.length (size - s)) src.length
      = min src.length (size - s) := by omega
  rw [hmin]
  split_ifs with h1 h2 h3
  · exfalso; omega
  · rw [getD_drop]
  · rw [getD_take_of_lt _ _ _ _ (by omega)]
  · rfl

theorem length_writeSlices {data src : List T} {s size : ℕ}
    (hd : data.length = size) (hs : s ≤ size) (hL : src.length ≤ size) :
    (writeSlices data (splitRange size s src.length) src).length = size := by
  obtain ⟨hp, hh, ht⟩ := splitRange_spec size s src.length hs hL
  unfold writeSlices
  have hb1 : (splitRange size s src.length).1 + (splitRange size s src.length).2.1 +
      (src.take ((splitRange size s src.length).2.2 -
        (splitRange size s src.length).2.1)).length ≤
      data.length := by
    rw [hp, hh, hd]; simp [List.length_take]; omega
  have h1 := length_writeAt hb1
  rw [length_writeAt (by rw [h1, hd, hh]; simp [List.length_drop]; omega), h1, hd]

theorem getElem_idx_eq (l : List T) {a b : ℕ} (ha : a < l.length)
    (hb : b < l.length) (h : a = b) : l[a] = l[b] := by
  subst h
  rfl

theorem copy_append_fields (rb : RingBuffer T) (src : List T) :
    (copy_append rb src).size = rb.size ∧ (copy_append rb src).start = rb.start ∧
      (copy_append rb src).len = rb.len + src.length := ⟨rfl, rfl, rfl⟩

theorem WF_copy_append {rb : RingBuffer T} {src : List T}
    (hwf : WF rb) (hcap : rb.len + src.length ≤ rb.size) :
    WF (copy_append rb src) := by
  obtain ⟨hd, hs, hl, h0⟩ := hwf
  refine ⟨?_, ?_, ?_, ?_⟩
  · show (writeSlices rb.data (splitRange rb.size rb.endIdx src.length) src).length
      = rb.size
    exact length_writeSlices hd (endIdx_le rb hs hl) (by omega)
  · exact hs
  · show rb.len + src.length ≤ rb.size
    omega
  · exact h0

theorem live_copy_append {rb : RingBuffer T} {src : List T}
    (hwf : WF rb) (hcap : rb.len + src.length ≤ rb.size) :
    live (copy_append rb src) = live rb ++ src := by
  obtain ⟨hd, hs, hl, h0⟩ := hwf
  have he0 := endIdx_le rb hs hl
  have hec := endIdx_cases rb
  apply List.ext_getElem
  · simp [live, copy_append, live_length]
  · intro i h1 h2
    have hi2 : i < rb.len + src.length := by
      simpa [live, copy_append] using h1
    by_cases hi : i < rb.len
    · rw [List.getElem_append_left (by rw [live_length]; exact hi)]
      simp only [live, List.getElem_map, List.getElem_range]
      show (writeSlices rb.data (splitRange rb.size rb.endIdx src.length)
          src).getD ((rb.start + i) % rb.size) default
        = rb.data.getD ((rb.start + i) % rb.size) default
      rw [getD_writeSlices hd he0 (by omega)]
      rcases Nat.lt_or_ge (rb.start + i) rb.size with hsi | hsi
      · rw [Nat.mod_eq_of_lt hsi]
        rcases hec with ⟨hc, heq⟩ | ⟨hc, heq⟩ <;> rw [heq] <;>
          rw [if_neg (by omega), if_neg (by omega)]
      · have hj : (rb.start + i) % rb.size = rb.start + i - rb.size := by
          rw [mod_two_cases (by omega), if_pos (by omega)]
        rw [hj]
        rcases hec with ⟨hc, heq⟩ | ⟨hc, heq⟩ <;> rw [heq] <;>
          rw [if_neg (by omega), if_neg (by omega)]
    · rw [List.getElem_append_right (by rw [live_length]; omega)]
      simp only [live_length]
      simp only [live, List.getElem_map, List.getElem_range]
      show (writeSlices rb.data (splitRange rb.size rb.endIdx src.length)
          src).getD ((rb.start + i) % rb.size) default = src[i - rb.len]
      rw [getD_writeSlices hd he0 (by omega)]
      rcases Nat.lt_or_ge (rb.start + i) rb.size with hsi | hsi
      · rw [Nat.mod_eq_of_lt hsi]
        rcases hec with ⟨hc, heq⟩ | ⟨hc, heq⟩ <;> rw [heq] <;> split_ifs <;>
          first
          | (exfalso; omega)
          | (rw [getD_of_lt _ _ _ (by omega)]
             exact getElem_idx_eq src (by omega) (by omega) (by omega))
      · have hj : (rb.start + i) % rb.size = rb.start + i - rb.size := by
          rw [mod_two_cases (by omega), if_pos (by omega)]
        rw [hj]
        rcases hec with ⟨hc, heq⟩ | ⟨hc, heq⟩ <;> rw [heq] <;> split_ifs <;>
          first
          | (exfalso; omega)
          | (rw [getD_of_lt _ _ _ (by omega)]
             exact getElem_idx_eq src (by omega) (by omega) (by omega))

theorem WF_remove {rb : RingBuffer T} {n : ℕ} (hwf : WF rb) (hn : n ≤ rb.len) :
    WF (rb.remove n) := by
  obtain ⟨hd, hs, hl, h0⟩ := hwf
  refine ⟨hd, ?_, ?_, h0⟩
  · show (if rb.start + n > rb.size then rb.start + n - rb.size
      else rb.start + n) ≤ rb.size
    split <;> omega
  · show rb.len - n ≤ rb.size
    omega

theorem live_remove {rb : RingBuffer T} {n : ℕ} (hwf : WF rb) (hn : n ≤ rb.len) :
    live (rb.remove n) = (live rb).drop n := by
  obtain ⟨hd, hs, hl, h0⟩ := hwf
  apply List.ext_getElem
  · simp [live, remove]
  · intro i h1 h2
    have hi : i < rb.len - n := by simpa [live, remove] using h1
    rw [List.getElem_drop]
    simp only [live, remove, List.getElem_map, List.getElem_range]
    have hmod : ((if rb.start + n > rb.size then rb.start + n - rb.size
        else rb.start + n) + i) % rb.size = (rb.start + (n + i)) % rb.size := by
      split <;> rename_i hc
      · rw [mod_two_cases (by omega), mod_two_cases (by omega)]
        split_ifs <;> omega
      · rw [mod_two_cases (by omega), mod_two_cases (by omega)]
        split_ifs <;> omega
    rw [hmod]

theorem copy_remove_eq (rb : RingBuffer T) (n : ℕ) :
    (rb.copy_remove n).1 = rb.remove n ∧
      (rb.copy_remove n).2 = readSlices rb.data (splitRange rb.size rb.start n) :=
  ⟨rfl, rfl⟩

theorem take_live {rb : RingBuffer T} {n : ℕ} (hwf : WF rb) (hn : n ≤ rb.len) :
    (live rb).take n
      = (List.range n).map fun i => rb.data.getD ((rb.start + i) % rb.size) default := by
  apply List.ext_getElem
  · simp [live]; omega
  · intro i h1 h2
    have hi : i < n := by simpa using h2
    simp only [live, List.getElem_take, List.getElem_map, List.getElem_range]

theorem copy_remove_out {rb : RingBuffer T} {n : ℕ} (hwf : WF rb) (hn : n ≤ rb.len) :
    (rb.copy_remove n).2 = (live rb).take n := by
  obtain ⟨hd, hs, hl, h0⟩ := hwf
  rw [(copy_remove_eq rb n).2, readSlices_splitRange hd hs (by omega),
    take_live ⟨hd, hs, hl, h0⟩ hn]

/-- Core of `slices_replace` with a written payload `w` (the `src` slice, or
zeros when the source call passes `None`): the `len` field is untouched, the
oldest `w.length` live slots are overwritten and rotate to the tail. -/
theorem live_replace_core {rb : RingBuffer T} {w : List T}
    (hwf : WF rb) (hfull : rb.len = rb.size) (hn : w.length ≤ rb.size) :
    live { rb with
        data := writeSlices rb.data (splitRange rb.size rb.start w.length) w,
        start := if rb.start + w.length > rb.size
          then rb.start + w.length - rb.size else rb.start + w.length }
      = (live rb).drop w.length ++ w := by
  obtain ⟨hd, hs, hl, h0⟩ := hwf
  apply List.ext_getElem
  · simp [live]; omega
  · intro i h1 h2
    have hi : i < rb.len := by simpa [live] using h1
    by_cases hcase : i < rb.len - w.length
    · rw [List.getElem_append_left (by simp [live_length]; omega),
        List.getElem_drop]
      simp only [live, List.getElem_map, List.getElem_range]
      rw [getD_writeSlices hd hs hn, wrap_add_mod (by omega),
        show rb.start + w.length + i = rb.start + (w.length + i) by omega]
      rw [mod_three_cases (a := rb.start + (w.length + i)) (by omega) h0]
      split_ifs <;> first | rfl | (exfalso; omega)
    · rw [List.getElem_append_right (by simp [live_length]; omega)]
      simp only [live_length, List.length_drop]
      simp only [live, List.getElem_map, List.getElem_range]
      rw [getD_writeSlices hd hs hn, wrap_add_mod (by omega),
        show rb.start + w.length + i = rb.start + (w.length + i) by omega]
      rw [mod_three_cases (a := rb.start + (w.length + i)) (by omega) h0]
      split_ifs <;>
        first
        | (exfalso; omega)
        | (rw [getD_of_lt _ _ _ (by omega)]
           exact getElem_idx_eq w (by omega) (by omega) (by omega))

/-- Payload actually written by `copy_replace`: the `src` slice, or the
`Default::default()` fill for a `None` source. -/
def replacePayload (src : Option (List T)) (n : ℕ) : List T :=
  match src with
  | some s => s
  | none => List.replicate n default

theorem copy_replace_out {rb : RingBuffer T} {src : Option (List T)} {n : ℕ}
    (hwf : WF rb) (hfull : rb.len = rb.size) (hn : n ≤ rb.size) :
    (rb.copy_replace src n).2 = (live rb).take n := by
  obtain ⟨hd, hs, hl, h0⟩ := hwf
  show readSlices rb.data (splitRange rb.size rb.start n) = _
  rw [readSlices_splitRange hd hs hn, take_live ⟨hd, hs, hl, h0⟩ (by omega)]

theorem live_copy_replace {rb : RingBuffer T} {src : Option (List T)} {n : ℕ}
    (hwf : WF rb) (hfull : rb.len = rb.size) (hn : n ≤ rb.size)
    (hsrc : (replacePayload src n).length = n) :
    live (rb.copy_replace src n).1 = (live rb).drop n ++ replacePayload src n := by
  cases src with
  | some s =>
      have hsl : s.length = n := hsrc
      have h := live_replace_core (w := s) hwf hfull (by omega)
      rw [hsl] at h
      exact h
  | none =>
      have h := live_replace_core (w := List.replicate n default)
        hwf hfull (by simp [hn])
      simp only [List.length_replicate] at h
      exact h

theorem copy_replace_len (rb : RingBuffer T) (src : Option (List T)) (n : ℕ) :
    (rb.copy_replace src n).1.len = rb.len ∧
      (rb.copy_replace src n).1.size = rb.size := ⟨rfl, rfl⟩

theorem WF_copy_replace {rb : RingBuffer T} {src : Option (List T)} {n : ℕ}
    (hwf : WF rb) (hfull : rb.len = rb.size) (hn : n ≤ rb.size)
    (hsrc : (replacePayload src n).length = n) :
    WF (rb.copy_replace src n).1 := by
  obtain ⟨hd, hs, hl, h0⟩ := hwf
  refine ⟨?_, ?_, hl, h0⟩
  · cases src with
    | some s =>
        have hsl : s.length = n := hsrc
        show (writeSlices rb.data (splitRange rb.size rb.start n) s).length = rb.size
        rw [← hsl]
        exact length_writeSlices hd hs (by omega)
    | none =>
        show (writeSlices rb.data (splitRange rb.size rb.start n)
          (List.replicate n default)).length = rb.size
        have h : (writeSlices rb.data
            (splitRange rb.size rb.start
              (List.replicate n (default : T)).length)
            (List.replicate n (default : T))).length = rb.size :=
          length_writeSlices hd hs (by simp [hn])
        simpa using h
  · show (if rb.start + n > rb.size then rb.start + n - rb.size
      else rb.start + n) ≤ rb.size
    split <;> omega

theorem iter_zero {rb : RingBuffer T} (hwf : WF rb) : rb.iter 0 = live rb := by
  obtain ⟨hd, hs, hl, h0⟩ := hwf
  simp only [iter, splitRangeRel]
  norm_num
  rw [if_neg (by omega)]
  rw [readSlices_splitRange hd hs hl]
  rfl

theorem iter_neg {rb : RingBuffer T} {k : ℕ} (hwf : WF rb) (hk1 : 1 ≤ k)
    (hk2 : k ≤ rb.len) :
    rb.iter (-(k : ℤ)) = (live rb).drop (rb.len - k) := by
  obtain ⟨hd, hs, hl, h0⟩ := hwf
  simp only [iter, splitRangeRel]
  rw [if_neg (show ¬ (0 ≤ -(k : ℤ)) from by omega),
    show (-(-(k : ℤ))).toNat = k from by simp]
  have hsle : (if rb.start + rb.len - k > rb.size
      then rb.start + rb.len - k - rb.size else rb.start + rb.len - k)
        ≤ rb.size := by
    split <;> omega
  rw [readSlices_splitRange hd hsle (by omega)]
  apply List.ext_getElem
  · simp [live]; omega
  · intro i h1 h2
    have hi : i < k := by simpa using h1
    rw [List.getElem_drop]
    simp only [live, List.getElem_map, List.getElem_range]
    rw [wrap_add_mod (by omega),
      show rb.start + rb.len - k + i = rb.start + (rb.len - k + i) by omega]

/-! ### Sequences of `append`/`remove` calls (for the refinement claim) -/

/-- One public mutating call: `copy_append(src)` or `remove(n)`. -/
inductive RBOp (T : Type) where
  | app : List T → RBOp T
  | rem : ℕ → RBOp T

/-- Execute one call on the buffer. -/
def stepOp (rb : RingBuffer T) : RBOp T → RingBuffer T
  | .app src => rb.copy_append src
  | .rem n => rb.remove n

/-- Execute a call sequence left to right. -/
def runOps (rb : RingBuffer T) (ops : List (RBOp T)) : RingBuffer T :=
  ops.foldl stepOp rb

/-- The abstract model: a plain list, appended at the back, removed from the
front. -/
def modelStep (m : List T) : RBOp T → List T
  | .app src => m ++ src
  | .rem n => m.drop n

/-- Run the abstract model. -/
def runModel (m : List T) (ops : List (RBOp T)) : List T :=
  ops.foldl modelStep m

/-- The sequence never overfills capacity `cap` and never removes more than is
stored, starting from `n` live elements. -/
def ValidOps (cap : ℕ) : ℕ → List (RBOp T) → Prop
  | _, [] => True
  | n, .app src :: rest => n + src.length ≤ cap ∧ ValidOps cap (n + src.length) rest
  | n, .rem k :: rest => k ≤ n ∧ ValidOps cap (n - k) rest

/-- Total number of elements appended over the sequence. -/
def totalAppended : List (RBOp T) → ℕ
  | [] => 0
  | .app src :: rest => src.length + totalAppended rest
  | .rem _ :: rest => totalAppended rest

/-- Total number of elements removed over the sequence. -/
def totalRemoved : List (RBOp T) → ℕ
  | [] => 0
  | .app _ :: rest => totalRemoved rest
  | .rem k :: rest => k + totalRemoved rest

theorem runOps_spec {cap : ℕ} (ops : List (RBOp T)) :
    ∀ (rb : RingBuffer T) (m : List T), WF rb → rb.size = cap → live rb = m →
      ValidOps cap m.length ops →
      WF (runOps rb ops) ∧ (runOps rb ops).size = cap ∧
        live (runOps rb ops) = runModel m ops := by
  induction ops with
  | nil =>
      intro rb m hwf hsz hlive hv
      exact ⟨hwf, hsz, hlive⟩
  | cons op rest ih =>
      intro rb m hwf hsz hlive hv
      have hlen : rb.len = m.length := by rw [← hlive, live_length]
      cases op with
      | app src =>
          simp only [ValidOps] at hv
          obtain ⟨hc, hv'⟩ := hv
          have hcap : rb.len + src.length ≤ rb.size := by omega
          have hwf' := WF_copy_append hwf hcap
          have hlive' : live (rb.copy_append src) = m ++ src := by
            rw [live_copy_append hwf hcap, hlive]
          have h := ih (rb.copy_append src) (m ++ src) hwf'
            (by simpa [copy_append] using hsz) hlive'
            (by simpa [List.length_append] using hv')
          simpa [runOps, runModel, stepOp, modelStep] using h
      | rem n =>
          simp only [ValidOps] at hv
          obtain ⟨hc, hv'⟩ := hv
          have hn : n ≤ rb.len := by omega
          have hwf' := WF_remove hwf hn
          have hlive' : live (rb.remove n) = m.drop n := by
            rw [live_remove hwf hn, hlive]
          have h := ih (rb.remove n) (m.drop n) hwf'
            (by simpa [remove] using hsz) hlive'
            (by simpa [List.length_drop, hlen] using hv')
          simpa [runOps, runModel, stepOp, modelStep] using h

theorem runModel_length {cap : ℕ} (ops : List (RBOp T)) :
    ∀ m : List T, ValidOps cap m.length ops →
      totalRemoved ops ≤ m.length + totalAppended ops ∧
        (runModel m ops).length + totalRemoved ops
          = m.length + totalAppended ops := by
  induction ops with
  | nil =>
      intro m hv
      simp [runModel, totalAppended, totalRemoved]
  | cons op rest ih =>
      intro m hv
      cases op with
      | app src =>
          simp only [ValidOps] at hv
          obtain ⟨hc, hv'⟩ := hv
          have h := ih (m ++ src) (by simpa [List.length_append] using hv')
          simp only [runModel, totalAppended, totalRemoved, modelStep,
            List.foldl_cons] at h ⊢
          simp [List.length_append] at h
          omega
      | rem n =>
          simp only [ValidOps] at hv
          obtain ⟨hc, hv'⟩ := hv
          have h := ih (m.drop n) (by simpa [List.length_drop] using hv')
          simp only [runModel, totalAppended, totalRemoved, modelStep,
            List.foldl_cons] at h ⊢
          simp [List.length_drop] at h
          omega

end RingBuffer

/-! ## `src/fft_sizes.rs` — `generate_sizes`

The source computes with `f64` logarithms in three places: the output count,
the two loop upper bounds, and the per-slot argmin over
`|log2(candidate) − ideal|`.  The embedding replaces each by its exact value:

* `floorLog`/`ceilLog` are fuel-based (kernel-reducible) floor/ceiling
  logarithms; the `f64` versions agree with them except conceivably at exact
  powers, where an over-approximated loop bound only adds candidates that the
  `start ≤ x ≤ end` filter rejects anyway, so the output is unchanged;
* the argmin comparison `|log2 c − t| < |log2 d − t|` with
  `t = log2 start + i/dpo` is decided exactly by sign analysis:
  for `c < d` it holds iff `(c·d)^dpo > start^(2·dpo)·4^i`, for `c > d` iff
  `(c·d)^dpo < start^(2·dpo)·4^i`, and never for `c = d` — the integer
  comparisons implemented by `closerTo`.  `Iterator::min_by` returns the
  first minimum; the fold below replaces the running best only on a strictly
  smaller distance, which picks the same element.
-/

namespace FftSizes

/-- Factor pairs allowed besides powers of 2 and 3 (the source's `primes`). -/
def primesList : List ℕ := [1, 5, 7, 11]

/-- Insertion step of a stable ascending insertion sort. -/
def insertSorted (x : ℕ) : List ℕ → List ℕ
  | [] => [x]
  | y :: ys => if x ≤ y then x :: y :: ys else y :: insertSorted x ys

/-- Stable ascending sort, modelling `candidates.sort()`. -/
def sortNat (l : List ℕ) : List ℕ := l.foldr insertSorted []

/-- Fuel-based floor logarithm: `floorLogAux b fuel n = ⌊log_b n⌋` whenever
`fuel ≥ n ≥ 1` and `b ≥ 2` (kernel-reducible, unlike `Nat.log`). -/
def floorLogAux (b : ℕ) : ℕ → ℕ → ℕ
  | 0, _ => 0
  | fuel + 1, n => if n < b then 0 else floorLogAux b fuel (n / b) + 1

/-- Floor logarithm `⌊log_b n⌋`. -/
def floorLog (b n : ℕ) : ℕ := floorLogAux b n n

/-- Ceiling logarithm `⌈log_b n⌉` (the source's `.log(..).ceil()`). -/
def ceilLog (b n : ℕ) : ℕ := if n ≤ 1 then 0 else floorLog b (n - 1) + 1

/-- Output count: the source's
`((end.log2() - start.log2()) * div_per_oct) as usize + 1`, i.e.
`⌊dpo·log2(e/s)⌋ + 1 = ⌊log2(e^dpo / s^dpo)⌋ + 1`. -/
def numSizes (s e dpo : ℕ) : ℕ := floorLog 2 (e ^ dpo / s ^ dpo) + 1

/-- Candidate enumeration of the source's nested loops: `x = 2^a·3^b·p1·p2`
with `a ∈ 2..=⌈log2 e⌉`, `b ∈ 0..=⌈log_3 e⌉`, `p1 ≤ p2` drawn from
`primesList`, filtered to `start ≤ x ≤ end`. -/
def rawCandidates (s e : ℕ) : List ℕ :=
  (List.range' 2 (ceilLog 2 e - 1)).flatMap fun a =>
    (List.range (ceilLog 3 e + 1)).flatMap fun b =>
      (List.range primesList.length).flatMap fun i =>
        (List.range' i (primesList.length - i)).filterMap fun j =>
          let x := 2 ^ a * 3 ^ b * primesList.getD i 0 * primesList.getD j 0
          if s ≤ x ∧ x ≤ e then some x else none

/-- Exact integer decision of `|log2 c − t| < |log2 best − t|` with
`t = log2 s + i/dpo` (see the section comment). -/
def closerTo (s dpo i c best : ℕ) : Bool :=
  if c = best then false
  else if c < best then decide (s ^ (2 * dpo) * 4 ^ i < (c * best) ^ dpo)
  else decide ((c * best) ^ dpo < s ^ (2 * dpo) * 4 ^ i)

/-- Model of `generate_sizes`.  Returns `none` when the candidate list is
empty (there the source's `.min_by(..).unwrap()` panics). -/
def generate_sizes (s e dpo : ℕ) : Option (List ℕ) :=
  match sortNat (rawCandidates s e) with
  | [] => none
  | c :: cs =>
      some ((List.range (numSizes s e dpo)).map fun i =>
        cs.foldl (fun best x => if closerTo s dpo i x best then x else best) c)

theorem mem_insertSorted {x a : ℕ} {l : List ℕ} :
    a ∈ insertSorted x l ↔ a = x ∨ a ∈ l := by
  induction l with
  | nil => simp [insertSorted]
  | cons y ys ih =>
      simp only [insertSorted]
      split
      · simp
      · simp only [List.mem_cons, ih]
        tauto

theorem mem_sortNat {a : ℕ} {l : List ℕ} : a ∈ sortNat l ↔ a ∈ l := by
  unfold sortNat
  induction l with
  | nil => simp
  | cons y ys ih =>
      simp only [List.foldr_cons, mem_insertSorted, List.mem_cons, ih]

theorem pick_mem (s dpo i c : ℕ) (cs : List ℕ) :
    cs.foldl (fun best x => if closerTo s dpo i x best then x else best) c
      ∈ c :: cs := by
  induction cs generalizing c with
  | nil => simp
  | cons x xs ih =>
      simp only [List.foldl_cons]
      by_cases hb : closerTo s dpo i x c
      · simp only [hb, if_true]
        have h := ih x
        simp only [List.mem_cons] at h ⊢
        tauto
      · simp only [hb, if_false]
        have h := ih c
        simp only [List.mem_cons] at h ⊢
        tauto

theorem rawCandidates_mem {s e x : ℕ} (hx : x ∈ rawCandidates s e) :
    s ≤ x ∧ x ≤ e ∧
      ∃ a b p q, 2 ≤ a ∧ p ∈ primesList ∧ q ∈ primesList ∧ p ≤ q ∧
        x = 2 ^ a * 3 ^ b * p * q := by
  unfold rawCandidates at hx
  simp only [List.mem_flatMap, List.mem_filterMap, List.mem_range,
    List.mem_range'_1] at hx
  obtain ⟨a, ⟨ha2, _⟩, b, _, i, hi, j, ⟨hji, hj4⟩, hif⟩ := hx
  split at hif
  · rename_i hcond
    obtain ⟨hs, he⟩ := hcond
    cases hif
    refine ⟨hs, he, a, b, primesList.getD i 0, primesList.getD j 0, ha2,
      ?_, ?_, ?_, rfl⟩
    · have : i < 4 := by simpa [primesList] using hi
      interval_cases i <;> simp [primesList]
    · have : j < 4 := by
        have : primesList.length = 4 := by simp [primesList]
        omega
      interval_cases j <;> simp [primesList]
    · have h4 : j < 4 := by
        have : primesList.length = 4 := by simp [primesList]
        omega
      interval_cases j <;> interval_cases i <;>
        simp_all [primesList] <;> omega
  · cases hif

theorem generate_sizes_mem {s e dpo : ℕ} {l : List ℕ}
    (hl : generate_sizes s e dpo = some l) {x : ℕ} (hx : x ∈ l) :
    s ≤ x ∧ x ≤ e ∧ 4 ∣ x ∧
      ∃ a b p q, 2 ≤ a ∧ p ∈ primesList ∧ q ∈ primesList ∧ p ≤ q ∧
        x = 2 ^ a * 3 ^ b * p * q := by
  unfold generate_sizes at hl
  rcases hcands : sortNat (rawCandidates s e) with _ | ⟨c, cs⟩ <;>
    rw [hcands] at hl
  · cases hl
  · have hlist := (Option.some.injEq _ _).mp hl
    subst hlist
    obtain ⟨i, _, rfl⟩ := List.mem_map.mp hx
    have hmem : cs.foldl
        (fun best x => if closerTo s dpo i x best then x else best) c
          ∈ sortNat (rawCandidates s e) := by
      rw [hcands]; exact pick_mem s dpo i c cs
    have hraw := mem_sortNat.mp hmem
    obtain ⟨hs, he, a, b, p, q, ha2, hp, hq, hpq, heq⟩ := rawCandidates_mem hraw
    refine ⟨hs, he, ?_, a, b, p, q, ha2, hp, hq, hpq, heq⟩
    refine ⟨2 ^ (a - 2) * 3 ^ b * p * q, ?_⟩
    have hpow : (2 : ℕ) ^ a = 4 * 2 ^ (a - 2) := by
      conv_lhs => rw [show a = 2 + (a - 2) from by omega]
      rw [pow_add]
      norm_num
    rw [heq, hpow]
    ring

end FftSizes

/-! ## `src/spectral_decay.rs` — the engine's scalar state

The embedding keeps the scalar state of `SpectralDecay` (`grain_index`,
`grain_size`, `hop`, `delay_comp`, `offset`), the per-grain table and the
stored parameter struct.  Each `grains[i]` triple `(window, fft, ifft)` is
represented by its grain size (`grains[i].0.len()` in the source — the only
datum `set_params`/`delay` read from it); the two ring buffers, scratch
buffers and RNG are not part of the scalar state these claims concern.
-/

/-- Parameter struct `SpectralDecayParameters` (six `f32` fields). -/
structure SDParams where
  grain_select : F32
  fuzz : F32
  loss : F32
  glitch_freq : F32
  glitch_gain : F32
  delay_select : F32
  deriving DecidableEq

/-- Source `Default for SpectralDecayParameters`. -/
def SDParams.defaults : SDParams :=
  ⟨F32.val 0, F32.val 0, F32.val 0, F32.val 0, F32.val 1, F32.val 0⟩

/-- Scalar state of `SpectralDecay`; `grains` lists the grain sizes. -/
structure SpectralDecay where
  grain_index : ℕ
  grain_size : ℕ
  hop : ℕ
  delay_comp : ℕ
  offset : ℕ
  grains : List ℕ
  params : SDParams
  deriving DecidableEq

namespace SpectralDecay

/-- Constructor `SpectralDecay::new(grain_sizes)`; asserts (as theorem
hypotheses elsewhere) a nonempty list of sizes, all divisible by 4,
nondecreasing. -/
def new (sizes : List ℕ) : SpectralDecay where
  grain_index := 0
  grain_size := sizes.headD 0
  hop := sizes.headD 0 / 4
  delay_comp := sizes.headD 0 * 5 / 4
  offset := 0
  grains := sizes
  params := SDParams.defaults

/-- Method `select_to_index`:
`((select * num_grains as f32) as usize).min(num_grains - 1)`. -/
def select_to_index (s : SpectralDecay) (sel : F32) : ℕ :=
  min (F32.toUsize (F32.fmulNat sel s.grains.length)) (s.grains.length - 1)

/-- Method `delay()`: `(grain_size + hop).max(delay_comp)`. -/
def delay (s : SpectralDecay) : ℕ :=
  max (s.grain_size + s.hop) s.delay_comp

/-- Soft-transition offset: the source computes
`hop_phase = offset as f32 / hop as f32` and then
`(hop_phase * new_hop as f32) as usize`.  The `as usize` cast truncates
toward zero, i.e. takes the floor of the nonnegative product.  Modelled with
exact rationals; exact whenever the `f32` quotient and product are
representable (in particular at every concrete instance evaluated in this
file, where `hop` is a power of two).  Assumes `hop > 0` (guaranteed by the
engine for positive grain sizes): for `hop = 0` the source's float division
yields `NaN` or `+inf` where this model yields `0`. -/
def softOffset (offset hop newHop : ℕ) : ℕ :=
  (⌊((offset : ℚ) / (hop : ℚ)) * (newHop : ℚ)⌋).toNat

/-- The exact-rational soft offset is plain integer arithmetic:
`⌊(offset/hop)·newHop⌋ = offset·newHop / hop` (natural division; both sides
are `0` when `hop = 0`). -/
theorem softOffset_eq (o h nh : ℕ) : softOffset o h nh = o * nh / h := by
  unfold softOffset
  rcases Nat.eq_zero_or_pos h with rfl | hpos
  · simp
  · have h1 : ((o : ℚ) / h) * nh = ((o * nh : ℕ) : ℚ) / ((h : ℕ) : ℚ) := by
      push_cast; ring
    rw [h1, Rat.floor_natCast_div_natCast, ← Int.ofNat_ediv, Int.toNat_ofNat]

/-- Method `set_params`, translated clause by clause from the source. -/
def set_params (s : SpectralDecay) (p : SDParams) : SpectralDecay :=
  let s1 :=
    if F32.fne p.grain_select s.params.grain_select then
      let gi := s.select_to_index p.grain_select
      if s.grain_index ≠ gi then
        let gs := s.grains.getD gi 0
        if ((gs : ℤ) - (s.grain_size : ℤ)).natAbs > min gs s.grain_size then
          { s with grain_index := gi, grain_size := gs,
                   offset := 0, hop := gs / 4 }
        else
          { s with grain_index := gi, grain_size := gs, hop := gs / 4,
                   offset := softOffset s.offset s.hop (gs / 4) }
      else s
    else s
  let s2 :=
    if F32.fne p.delay_select s1.params.delay_select then
      { s1 with delay_comp :=
          s1.grains.getD (s1.select_to_index p.delay_select) 0 / 4 * 5 }
    else s1
  { s2 with params := p }

end SpectralDecay

/-! ### The per-bin spectral rule of `process_buffers`

For each frequency bin the source applies the first matching rule of an
`if`/`else if` chain; which branch fires depends only on the drawn random
`r`, the parameters, the bin magnitude and `max_amp`.  `BinAction` names the
four outcomes. -/

inductive BinAction where
  | glitch : BinAction
  | gateZero : BinAction
  | fuzzed : BinAction
  | unchanged : BinAction
  deriving DecidableEq

/-- Rule selection for one bin: `rand() < glitch_freq / 8.` picks the glitch
rule; else `x.norm() / max_amp < loss` zeroes the bin; else `fuzz > 0.`
randomises the phase; else the bin is unchanged. -/
def binAction (r glitchFreq loss fz norm maxAmp : F32) : BinAction :=
  if F32.flt r (F32.fdiv glitchFreq (F32.val 8)) then BinAction.glitch
  else if F32.flt (F32.fdiv norm maxAmp) loss then BinAction.gateZero
  else if F32.flt (F32.val 0) fz then BinAction.fuzzed
  else BinAction.unchanged

/-- The same chain with the magnitude-gate rule removed (what "skipping rule
(b)" means): used to state that a silent grain falls through to the fuzz
rule. -/
def binActionNoGate (r glitchFreq fz : F32) : BinAction :=
  if F32.flt r (F32.fdiv glitchFreq (F32.val 8)) then BinAction.glitch
  else if F32.flt (F32.val 0) fz then BinAction.fuzzed
  else BinAction.unchanged

/-- Source loop `for x in freq_buf { max_amp = x.norm().max(max_amp) }`,
starting from `max_amp = 0.`. -/
def maxAmpF (norms : List F32) : F32 :=
  norms.foldl (fun acc x => F32.fmax x acc) (F32.val 0)

/-! ## Shared helper lemmas for the claim theorems -/

/-- Upper bound witness for the `fmax` fold: `leVal x m` says the value `x`
cannot exceed the finite magnitude `m` (`+inf` exceeds everything, `NaN` and
`-inf` never win a `max`). -/
def F32.leVal : F32 → ℚ → Prop
  | F32.nan, _ => True
  | F32.inf, _ => False
  | F32.ninf, _ => True
  | F32.val q, m => q ≤ m

theorem leVal_fmax {x a : F32} {m : ℚ} (h : F32.leVal (F32.fmax x a) m) :
    F32.leVal x m ∧ F32.leVal a m := by
  cases x <;> cases a <;> simp_all [F32.fmax, F32.leVal, max_le_iff]

theorem foldl_fmax_le {m : ℚ} :
    ∀ (l : List F32) (acc : F32),
      l.foldl (fun a x => F32.fmax x a) acc = F32.val m →
      F32.leVal acc m ∧ ∀ x ∈ l, F32.leVal x m := by
  intro l
  induction l with
  | nil =>
      intro acc h
      refine ⟨?_, by simp⟩
      rw [List.foldl_nil] at h
      subst h
      simp [F32.leVal]
  | cons x xs ih =>
      intro acc h
      rw [List.foldl_cons] at h
      obtain ⟨h1, h2⟩ := ih _ h
      obtain ⟨hx, ha⟩ := leVal_fmax h1
      refine ⟨ha, ?_⟩
      intro y hy
      rcases List.mem_cons.mp hy with rfl | hy2
      · exact hx
      · exact h2 y hy2

theorem le_getLast_of_mem :
    ∀ {l : List ℕ}, List.Chain' (· ≤ ·) l →
      ∀ {x : ℕ}, x ∈ l → ∀ h : l ≠ [], x ≤ l.getLast h := by
  intro l
  induction l with
  | nil =>
      intro _ x hx
      cases hx
  | cons a t ih =>
      intro hc x hx h
      cases t with
      | nil =>
          rcases List.mem_singleton.mp hx with rfl
          simp
      | cons b t2 =>
          have hc2 : List.Chain' (· ≤ ·) (b :: t2) := hc.tail
          have hab : a ≤ b := (List.chain'_cons.mp hc).1
          rw [List.getLast_cons (by simp)]
          rcases List.mem_cons.mp hx with rfl | hx2
          · exact le_trans hab (ih hc2 (List.mem_cons_self b t2) (by simp))
          · exact ih hc2 hx2 (by simp)

theorem select_lt (s : SpectralDecay) (sel : F32) (h : 0 < s.grains.length) :
    s.select_to_index sel < s.grains.length :=
  lt_of_le_of_lt (min_le_right _ _) (by omega)

theorem select_congr_of_fne_false {s : SpectralDecay} {a b : F32}
    (h : F32.fne a b = false) : s.select_to_index a = s.select_to_index b := by
  obtain ⟨rfl, -⟩ := (F32.fne_eq_false_iff a b).mp h
  rfl

theorem getD_mem_of_lt {l : List ℕ} {i : ℕ} (h : i < l.length) :
    l.getD i 0 ∈ l := by
  rw [RingBuffer.getD_of_lt _ _ _ h]
  exact List.getElem_mem h

/-! ## The claims -/

/-- C4: `delay()` always returns `max(grain_size + hop, delay_comp)`, and for
a freshly constructed engine with ladder `[32, 64]` and default parameters it
returns `40`. -/
theorem c4_delay_formula :
    (∀ s : SpectralDecay, s.delay = max (s.grain_size + s.hop) s.delay_comp) ∧
      (SpectralDecay.new [32, 64]).delay = 40 :=
  ⟨fun _ => rfl, by decide⟩

/-- C9: `generate_sizes(8, 32, 2)` returns a sequence whose first five
elements are exactly `[8, 12, 16, 24, 32]` (here the whole output). -/
theorem c9_generate_sizes_first_five :
    ∃ l, FftSizes.generate_sizes 8 32 2 = some l ∧
      l.take 5 = [8, 12, 16, 24, 32] :=
  ⟨[8, 12, 16, 24, 32], by decide, by decide⟩

/-- C8: every size returned by `generate_sizes(start, end, dpo)` lies in
`[start, end]`, is divisible by 4, and factors as `2^a·3^b·p1·p2` with
`a ≥ 2`, `b ≥ 0` and `p1 ≤ p2` drawn from `{1, 5, 7, 11}`. -/
theorem c8_generate_sizes_membership (s e dpo : ℕ) (l : List ℕ)
    (hl : FftSizes.generate_sizes s e dpo = some l) (x : ℕ) (hx : x ∈ l) :
    s ≤ x ∧ x ≤ e ∧ 4 ∣ x ∧
      ∃ a b p q, 2 ≤ a ∧ p ∈ FftSizes.primesList ∧ q ∈ FftSizes.primesList ∧
        p ≤ q ∧ x = 2 ^ a * 3 ^ b * p * q :=
  FftSizes.generate_sizes_mem hl hx

/-- Witness for C8 at `generate_sizes 8 32 2` and the returned size `12`
(which factors as `2^2·3^1·1·1`). -/
theorem c8_generate_sizes_membership_witness :
    8 ≤ 12 ∧ 12 ≤ 32 ∧ 4 ∣ 12 ∧
      ∃ a b p q, 2 ≤ a ∧ p ∈ FftSizes.primesList ∧ q ∈ FftSizes.primesList ∧
        p ≤ q ∧ 12 = 2 ^ a * 3 ^ b * p * q :=
  c8_generate_sizes_membership 8 32 2 [8, 12, 16, 24, 32] (by decide) 12
    (by decide)

/-- C10: for every `f32` select value — `NaN`, infinities, negatives and
out-of-range values included — `select_to_index` returns an index below the
ladder length, so `set_params` never indexes the grain table out of bounds
through `grain_select` or `delay_select`. -/
theorem c10_select_to_index_in_bounds (s : SpectralDecay) (p : SDParams)
    (h : 0 < s.grains.length) :
    s.select_to_index p.grain_select < s.grains.length ∧
      s.select_to_index p.delay_select < s.grains.length ∧
      ∀ sel : F32, s.select_to_index sel < s.grains.length :=
  ⟨select_lt s _ h, select_lt s _ h, fun sel => select_lt s sel h⟩

/-- Witness for C10: a two-entry ladder with a `NaN` grain select and an
out-of-range delay select. -/
theorem c10_select_to_index_in_bounds_witness :
    0 < (SpectralDecay.new [32, 64]).grains.length ∧
      ((SpectralDecay.new [32, 64]).select_to_index F32.nan
          < (SpectralDecay.new [32, 64]).grains.length ∧
        (SpectralDecay.new [32, 64]).select_to_index (F32.val 7)
          < (SpectralDecay.new [32, 64]).grains.length ∧
        ∀ sel : F32, (SpectralDecay.new [32, 64]).select_to_index sel
          < (SpectralDecay.new [32, 64]).grains.length) :=
  ⟨by decide,
    c10_select_to_index_in_bounds (SpectralDecay.new [32, 64])
      { SDParams.defaults with grain_select := F32.nan,
                               delay_select := F32.val 7 } (by decide)⟩

/-- C3: in a fully silent grain (`max_amp = 0`), the magnitude-gate rule (b)
fires for no bin — no bin is zeroed by the gate and the chain falls through
to the fuzz rule, exactly as if the gate test were absent.  (In the source
the ratio `0.0/0.0` evaluates to `NaN` and the IEEE comparison `NaN < loss`
is false, which is what skips the rule.) -/
theorem c3_silent_grain_gate_skipped (norms : List F32) (r gf loss fz x : F32)
    (hmax : maxAmpF norms = F32.val 0)
    (hmag : ∀ y ∈ norms, y = F32.nan ∨ ∃ q : ℚ, y = F32.val q ∧ 0 ≤ q)
    (hx : x ∈ norms) :
    binAction r gf loss fz x (maxAmpF norms) ≠ BinAction.gateZero ∧
      binAction r gf loss fz x (maxAmpF norms) = binActionNoGate r gf fz := by
  have hle := (foldl_fmax_le norms (F32.val 0) hmax).2 x hx
  rw [hmax]
  have hgate : F32.flt (F32.fdiv x (F32.val 0)) loss = false := by
    rcases hmag x hx with rfl | ⟨q, rfl, hq⟩
    · cases loss <;> rfl
    · have hq0 : q = 0 := le_antisymm (by simpa [F32.leVal] using hle) hq
      subst hq0
      cases loss <;> simp [F32.fdiv, F32.flt]
  unfold binAction binActionNoGate
  rw [hgate]
  constructor
  · split_ifs <;> simp_all
  · split_ifs <;> simp_all

/-- Witness for C3: one silent bin with `loss = 1`, `fuzz = 0.5`: the gate is
skipped and the fuzz rule applies. -/
theorem c3_silent_grain_gate_skipped_witness :
    maxAmpF [F32.val 0] = F32.val 0 ∧
      (binAction (F32.val (1/2)) (F32.val 0) (F32.val 1) (F32.val (1/2))
          (F32.val 0) (maxAmpF [F32.val 0]) ≠ BinAction.gateZero ∧
        binAction (F32.val (1/2)) (F32.val 0) (F32.val 1) (F32.val (1/2))
          (F32.val 0) (maxAmpF [F32.val 0])
          = binActionNoGate (F32.val (1/2)) (F32.val 0) (F32.val (1/2))) :=
  ⟨by decide,
    c3_silent_grain_gate_skipped [F32.val 0] (F32.val (1/2)) (F32.val 0)
      (F32.val 1) (F32.val (1/2)) (F32.val 0) (by decide)
      (by
        intro y hy
        rw [List.mem_singleton] at hy
        subst hy
        exact Or.inr ⟨0, rfl, le_refl 0⟩) (by decide)⟩

theorem select_to_index_grains_congr {a b : SpectralDecay}
    (h : a.grains = b.grains) (sel : F32) :
    a.select_to_index sel = b.select_to_index sel := by
  unfold SpectralDecay.select_to_index
  rw [h]

theorem bool_eq_false_of_ne_true {b : Bool} (h : ¬ b = true) : b = false := by
  cases b
  · rfl
  · exact absurd rfl h

/-- C5: a `set_params` call whose `delay_select` picks the largest ladder
size pins `delay()` to that of an engine built from the largest size alone,
regardless of which grain is actively processing.  The hypotheses are the
constructor's assertions (nonempty, nondecreasing, divisible-by-4 ladder)
plus the engine's reachability invariants (`grain_size` is a ladder entry,
`hop = grain_size/4`, and `delay_comp` matches the stored `delay_select`). -/
theorem c5_delay_compensation (s : SpectralDecay) (p : SDParams)
    (hne : s.grains ≠ [])
    (hchain : List.Chain' (· ≤ ·) s.grains)
    (hdvd : ∀ x ∈ s.grains, 4 ∣ x)
    (hgs : s.grain_size ∈ s.grains)
    (hhop : s.hop = s.grain_size / 4)
    (hdc : s.delay_comp
      = s.grains.getD (s.select_to_index s.params.delay_select) 0 / 4 * 5)
    (hsel : s.select_to_index p.delay_select = s.grains.length - 1) :
    (s.set_params p).delay = (SpectralDecay.new [s.grains.getLast hne]).delay := by
  have hK : 0 < s.grains.length := List.length_pos.mpr hne
  have hMmem : s.grains.getLast hne ∈ s.grains := List.getLast_mem hne
  have hM4 : 4 ∣ s.grains.getLast hne := hdvd _ hMmem
  have hlast : s.grains.getD (s.grains.length - 1) 0 = s.grains.getLast hne := by
    rw [RingBuffer.getD_of_lt _ _ _ (by omega)]
    exact (List.getLast_eq_getElem s.grains hne).symm
  have hRHS : (SpectralDecay.new [s.grains.getLast hne]).delay
      = s.grains.getLast hne / 4 * 5 := by
    show max (s.grains.getLast hne + s.grains.getLast hne / 4)
      (s.grains.getLast hne * 5 / 4) = s.grains.getLast hne / 4 * 5
    omega
  rw [hRHS]
  have key : ∀ g ∈ s.grains,
      max (g + g / 4) (s.grains.getLast hne / 4 * 5)
        = s.grains.getLast hne / 4 * 5 := by
    intro g hg
    have h1 : g ≤ s.grains.getLast hne := le_getLast_of_mem hchain hg hne
    have h2 : 4 ∣ g := hdvd g hg
    omega
  have hdcM : s.grains.getD (s.select_to_index p.delay_select) 0 / 4 * 5
      = s.grains.getLast hne / 4 * 5 := by
    rw [hsel, hlast]
  have hdcStored : F32.fne p.delay_select s.params.delay_select = false →
      s.delay_comp = s.grains.getLast hne / 4 * 5 := by
    intro hf
    rw [hdc, ← select_congr_of_fne_false hf, hsel, hlast]
  unfold SpectralDecay.set_params
  by_cases hb1 : F32.fne p.grain_select s.params.grain_select = true
  · rw [if_pos hb1]
    by_cases hb2 : s.grain_index ≠ s.select_to_index p.grain_select
    · rw [if_pos hb2]
      have hgilt : s.select_to_index p.grain_select < s.grains.length :=
        select_lt s _ hK
      have hgmem : s.grains.getD (s.select_to_index p.grain_select) 0
          ∈ s.grains := getD_mem_of_lt hgilt
      by_cases hb3 : ((s.grains.getD (s.select_to_index p.grain_select) 0 : ℤ)
          - (s.grain_size : ℤ)).natAbs
            > min (s.grains.getD (s.select_to_index p.grain_select) 0)
                s.grain_size
      · rw [if_pos hb3]
        dsimp only
        by_cases hb4 : F32.fne p.delay_select s.params.delay_select = true
        · rw [if_pos hb4]
          show max (s.grains.getD (s.select_to_index p.grain_select) 0
              + s.grains.getD (s.select_to_index p.grain_select) 0 / 4)
            (s.grains.getD (s.select_to_index p.delay_select) 0 / 4 * 5)
            = s.grains.getLast hne / 4 * 5
          rw [hdcM]
          exact key _ hgmem
        · rw [if_neg hb4]
          show max (s.grains.getD (s.select_to_index p.grain_select) 0
              + s.grains.getD (s.select_to_index p.grain_select) 0 / 4)
            s.delay_comp = s.grains.getLast hne / 4 * 5
          rw [hdcStored (bool_eq_false_of_ne_true hb4)]
          exact key _ hgmem
      · rw [if_neg hb3]
        dsimp only
        by_cases hb4 : F32.fne p.delay_select s.params.delay_select = true
        · rw [if_pos hb4]
          show max (s.grains.getD (s.select_to_index p.grain_select) 0
              + s.grains.getD (s.select_to_index p.grain_select) 0 / 4)
            (s.grains.getD (s.select_to_index p.delay_select) 0 / 4 * 5)
            = s.grains.getLast hne / 4 * 5
          rw [hdcM]
          exact key _ hgmem
        · rw [if_neg hb4]
          show max (s.grains.getD (s.select_to_index p.grain_select) 0
              + s.grains.getD (s.select_to_index p.grain_select) 0 / 4)
            s.delay_comp = s.grains.getLast hne / 4 * 5
          rw [hdcStored (bool_eq_false_of_ne_true hb4)]
          exact key _ hgmem
    · rw [if_neg hb2]
      dsimp only
      by_cases hb4 : F32.fne p.delay_select s.params.delay_select = true
      · rw [if_pos hb4]
        show max (s.grain_size + s.hop) _ = _
        rw [hhop, hdcM]
        exact key _ hgs
      · rw [if_neg hb4]
        show max (s.grain_size + s.hop) s.delay_comp = _
        rw [hhop, hdcStored (bool_eq_false_of_ne_true hb4)]
        exact key _ hgs
  · rw [if_neg hb1]
    dsimp only
    by_cases hb4 : F32.fne p.delay_select s.params.delay_select = true
    · rw [if_pos hb4]
      show max (s.grain_size + s.hop) _ = _
      rw [hhop, hdcM]
      exact key _ hgs
    · rw [if_neg hb4]
      show max (s.grain_size + s.hop) s.delay_comp = _
      rw [hhop, hdcStored (bool_eq_false_of_ne_true hb4)]
      exact key _ hgs

/-- Witness for C5: ladder `[32, 64]`, `delay_select = 1.0` selects the
largest size; the engine's delay equals that of an engine built from `[64]`
alone. -/
theorem c5_delay_compensation_witness :
    ((SpectralDecay.new [32, 64]).set_params
        { SDParams.defaults with delay_select := F32.val 1 }).delay
      = (SpectralDecay.new
          [(SpectralDecay.new [32, 64]).grains.getLast (by decide)]).delay :=
  c5_delay_compensation (SpectralDecay.new [32, 64])
    { SDParams.defaults with delay_select := F32.val 1 }
    (by decide)
    (by norm_num [List.chain'_cons, SpectralDecay.new])
    (by decide) (by decide) (by decide)
    (by norm_num [SpectralDecay.select_to_index, F32.fmulNat, F32.toUsize,
      SpectralDecay.new, SDParams.defaults])
    (by norm_num [SpectralDecay.select_to_index, F32.fmulNat, F32.toUsize,
      SpectralDecay.new, SDParams.defaults])

/-- C1, counterexample: the claim says the soft transition sets
`offset = round(hop_phase · new_hop)`, but the source's `as usize` cast
truncates.  State: grain ladder `[32, 56]`, active size 32 (`hop = 8`),
`offset = 1`; `grain_select = 1.0` maps to index 1 ≠ 0, size 56 is within a
factor of 2 of 32 (`|56−32| = 24 ≤ min = 32`, soft branch), `new_hop = 14`,
`hop_phase·new_hop = 1/8·14 = 1.75`: the code stores `⌊1.75⌋ = 1`, while the
claim's `round(1.75) = 2`. -/
theorem c1_grain_switch_counterexample :
    ((SpectralDecay.mk 0 32 8 40 1 [32, 56] SDParams.defaults).set_params
        { SDParams.defaults with grain_select := F32.val 1 }).offset = 1
      ∧ ((SpectralDecay.mk 0 32 8 40 1 [32, 56] SDParams.defaults).set_params
        { SDParams.defaults with grain_select := F32.val 1 }).hop = 14
      ∧ (SpectralDecay.mk 0 32 8 40 1 [32, 56]
          SDParams.defaults).select_to_index (F32.val 1) = 1
      ∧ (((56 : ℤ) - 32).natAbs ≤ min 56 32)
      ∧ round ((1 : ℚ) / 8 * 14) = 2 ∧ (1 : ℕ) ≠ 2 := by
  refine ⟨?_, ?_, ?_, by decide, by norm_num [round_eq], by decide⟩
  · norm_num [SpectralDecay.set_params, SpectralDecay.select_to_index,
      F32.fmulNat, F32.toUsize, F32.fne, SDParams.defaults,
      SpectralDecay.softOffset_eq]
  · norm_num [SpectralDecay.set_params, SpectralDecay.select_to_index,
      F32.fmulNat, F32.toUsize, F32.fne, SDParams.defaults]
  · norm_num [SpectralDecay.select_to_index, F32.fmulNat, F32.toUsize]

/-- C1, amended: on a `set_params` call whose `grain_select` maps to a
different ladder index (given the invariant that `grain_index` matches the
stored `grain_select`), the engine switches to the new size `gs`; always
`hop := gs/4`; if `|gs − old| > min(gs, old)` (more than a factor of 2) then
`offset := 0`; otherwise `offset := ⌊(old_offset/old_hop)·new_hop⌋` — the
truncated (floored), not rounded, hop-phase interpolation. -/
theorem c1_grain_switch_amended (s : SpectralDecay) (p : SDParams)
    (hidx : s.grain_index = s.select_to_index s.params.grain_select)
    (hne : s.select_to_index p.grain_select ≠ s.grain_index) :
    (s.set_params p).grain_size
        = s.grains.getD (s.select_to_index p.grain_select) 0 ∧
      (s.set_params p).hop
        = s.grains.getD (s.select_to_index p.grain_select) 0 / 4 ∧
      (((s.grains.getD (s.select_to_index p.grain_select) 0 : ℤ)
          - (s.grain_size : ℤ)).natAbs
          > min (s.grains.getD (s.select_to_index p.grain_select) 0)
              s.grain_size →
        (s.set_params p).offset = 0) ∧
      (((s.grains.getD (s.select_to_index p.grain_select) 0 : ℤ)
          - (s.grain_size : ℤ)).natAbs
          ≤ min (s.grains.getD (s.select_to_index p.grain_select) 0)
              s.grain_size →
        (s.set_params p).offset
          = SpectralDecay.softOffset s.offset s.hop
              (s.grains.getD (s.select_to_index p.grain_select) 0 / 4)) := by
  have hfne : F32.fne p.grain_select s.params.grain_select = true := by
    rcases h : F32.fne p.grain_select s.params.grain_select with _ | _
    · exact absurd ((select_congr_of_fne_false h).trans hidx.symm) hne
    · rfl
  unfold SpectralDecay.set_params
  rw [if_pos hfne, if_pos (Ne.symm hne)]
  by_cases hb3 : ((s.grains.getD (s.select_to_index p.grain_select) 0 : ℤ)
      - (s.grain_size : ℤ)).natAbs
        > min (s.grains.getD (s.select_to_index p.grain_select) 0)
            s.grain_size
  · rw [if_pos hb3]
    dsimp only
    by_cases hb4 : F32.fne p.delay_select s.params.delay_select = true
    · rw [if_pos hb4]
      exact ⟨rfl, rfl, fun _ => rfl, fun hle => absurd hb3 (not_lt.mpr hle)⟩
    · rw [if_neg hb4]
      exact ⟨rfl, rfl, fun _ => rfl, fun hle => absurd hb3 (not_lt.mpr hle)⟩
  · rw [if_neg hb3]
    dsimp only
    by_cases hb4 : F32.fne p.delay_select s.params.delay_select = true
    · rw [if_pos hb4]
      exact ⟨rfl, rfl, fun hgt => absurd hgt hb3, fun _ => rfl⟩
    · rw [if_neg hb4]
      exact ⟨rfl, rfl, fun hgt => absurd hgt hb3, fun _ => rfl⟩

/-- Witness for the amended C1 at the counterexample's state: the soft branch
applies and `offset` becomes `softOffset 1 8 14`. -/
theorem c1_grain_switch_amended_witness :
    let s := SpectralDecay.mk 0 32 8 40 1 [32, 56] SDParams.defaults
    let p : SDParams := { SDParams.defaults with grain_select := F32.val 1 }
    (s.set_params p).grain_size
        = s.grains.getD (s.select_to_index p.grain_select) 0 ∧
      (s.set_params p).hop
        = s.grains.getD (s.select_to_index p.grain_select) 0 / 4 ∧
      (((s.grains.getD (s.select_to_index p.grain_select) 0 : ℤ)
          - (s.grain_size : ℤ)).natAbs
          > min (s.grains.getD (s.select_to_index p.grain_select) 0)
              s.grain_size →
        (s.set_params p).offset = 0) ∧
      (((s.grains.getD (s.select_to_index p.grain_select) 0 : ℤ)
          - (s.grain_size : ℤ)).natAbs
          ≤ min (s.grains.getD (s.select_to_index p.grain_select) 0)
              s.grain_size →
        (s.set_params p).offset
          = SpectralDecay.softOffset s.offset s.hop
              (s.grains.getD (s.select_to_index p.grain_select) 0 / 4)) :=
  c1_grain_switch_amended
    (SpectralDecay.mk 0 32 8 40 1 [32, 56] SDParams.defaults)
    { SDParams.defaults with grain_select := F32.val 1 }
    (by norm_num [SpectralDecay.select_to_index, F32.fmulNat, F32.toUsize,
      SDParams.defaults])
    (by norm_num [SpectralDecay.select_to_index, F32.fmulNat, F32.toUsize])

open RingBuffer

/-- C2, counterexample: the claim's invariant `start < capacity` is not
preserved.  A full 4-slot buffer with `start = 0` after `remove(4)` (its
precondition `4 ≤ len` holds) has `start = 4 = capacity`, because the
source's wrap test `if self.start > self.size` is strict.  (The buffer keeps
behaving correctly — `start = size` acts as `start = 0` in every index
computation — but the stated bound is violated.) -/
theorem c2_invariant_counterexample :
    ((RingBuffer.new ℤ 4 true).start < (RingBuffer.new ℤ 4 true).size
        ∧ (RingBuffer.new ℤ 4 true).len ≤ (RingBuffer.new ℤ 4 true).size
        ∧ 4 ≤ (RingBuffer.new ℤ 4 true).len)
      ∧ ((RingBuffer.new ℤ 4 true).remove 4).start
          = ((RingBuffer.new ℤ 4 true).remove 4).size
      ∧ ¬ (((RingBuffer.new ℤ 4 true).remove 4).start
          < ((RingBuffer.new ℤ 4 true).remove 4).size) := by
  decide

/-- C2, amended: every operation, invoked with its precondition satisfied,
preserves `0 ≤ start ≤ capacity` and `0 ≤ len ≤ capacity` (the lower bounds
are inherent to `usize`; the upper bound on `start` is non-strict because the
strict wrap test makes `start = capacity` reachable).  Relative iteration
does not mutate the state. -/
theorem c2_invariant_amended {T : Type} [Inhabited T] (rb : RingBuffer T)
    (n k : ℕ) (src : List T) (o : Option (List T))
    (hs : rb.start ≤ rb.size) (hl : rb.len ≤ rb.size) :
    (rb.len + src.length ≤ rb.size →
      (rb.copy_append src).start ≤ (rb.copy_append src).size ∧
        (rb.copy_append src).len ≤ (rb.copy_append src).size) ∧
      (n ≤ rb.len →
        (rb.remove n).start ≤ (rb.remove n).size ∧
          (rb.remove n).len ≤ (rb.remove n).size) ∧
      (n ≤ rb.len →
        (rb.copy_remove n).1.start ≤ (rb.copy_remove n).1.size ∧
          (rb.copy_remove n).1.len ≤ (rb.copy_remove n).1.size) ∧
      (rb.len = rb.size → k ≤ rb.size →
        (rb.copy_replace o k).1.start ≤ (rb.copy_replace o k).1.size ∧
          (rb.copy_replace o k).1.len ≤ (rb.copy_replace o k).1.size) := by
  refine ⟨fun hc => ⟨hs, hc⟩, fun hn => ⟨?_, ?_⟩, fun hn => ⟨?_, ?_⟩,
    fun hf hk => ⟨?_, ?_⟩⟩
  · show (if rb.start + n > rb.size then rb.start + n - rb.size
      else rb.start + n) ≤ rb.size
    split <;> omega
  · show rb.len - n ≤ rb.size
    omega
  · show (if rb.start + n > rb.size then rb.start + n - rb.size
      else rb.start + n) ≤ rb.size
    split <;> omega
  · show rb.len - n ≤ rb.size
    omega
  · show (if rb.start + k > rb.size then rb.start + k - rb.size
      else rb.start + k) ≤ rb.size
    split <;> omega
  · exact hl

/-- Witness for the amended C2: a buffer with `start = 1`, `len = 2`,
capacity 4, exercising all four operations. -/
theorem c2_invariant_amended_witness :
    let rb : RingBuffer ℤ := ⟨[10, 20, 30, 40], 4, 1, 2⟩
    (rb.len + [5, 6].length ≤ rb.size →
      (rb.copy_append [5, 6]).start ≤ (rb.copy_append [5, 6]).size ∧
        (rb.copy_append [5, 6]).len ≤ (rb.copy_append [5, 6]).size) ∧
      (1 ≤ rb.len →
        (rb.remove 1).start ≤ (rb.remove 1).size ∧
          (rb.remove 1).len ≤ (rb.remove 1).size) ∧
      (1 ≤ rb.len →
        (rb.copy_remove 1).1.start ≤ (rb.copy_remove 1).1.size ∧
          (rb.copy_remove 1).1.len ≤ (rb.copy_remove 1).1.size) ∧
      (rb.len = rb.size → 2 ≤ rb.size →
        (rb.copy_replace (some [7, 8]) 2).1.start
            ≤ (rb.copy_replace (some [7, 8]) 2).1.size ∧
          (rb.copy_replace (some [7, 8]) 2).1.len
            ≤ (rb.copy_replace (some [7, 8]) 2).1.size) :=
  c2_invariant_amended (⟨[10, 20, 30, 40], 4, 1, 2⟩ : RingBuffer ℤ) 1 2
    [5, 6] (some [7, 8]) (by decide) (by decide)

/-- C6, counterexample: with one element appended, `k = 0` satisfies
`k ≤ len()`, but `iter(−0)` is `iter(0)`, which yields the whole live region
(one element), not "the last 0 inserted elements" (none).  (For `len() = 0`
even `iter(0)` itself violates `iter`'s own precondition `offset < len` and
aborts.) -/
theorem c6_append_remove_counterexample :
    let rb := (RingBuffer.new ℤ 2 false).copy_append [5]
    (0 ≤ rb.len) ∧ rb.iter (-(0 : ℤ)) = [5] ∧ rb.iter (-(0 : ℤ)) ≠ [] := by
  refine ⟨by decide, by decide, by decide⟩

/-- C6, amended: for any valid `copy_append`/`remove` sequence (never
overfilling, never over-removing), `len()` is total appended minus total
removed; when `len() > 0`, `iter(0)` yields exactly the live elements in
insertion order; and for `1 ≤ k ≤ len()`, `iter(−k)` yields the last `k`
inserted elements in insertion order (`k = 0` degenerates to `iter(0)`, and
`iter(0)` on an empty buffer violates `iter`'s precondition). -/
theorem c6_append_remove_refinement {T : Type} [Inhabited T] (cap : ℕ)
    (ops : List (RBOp T)) (h0 : 0 < cap) (hv : ValidOps cap 0 ops) :
    (totalRemoved ops ≤ totalAppended ops ∧
      (runOps (RingBuffer.new T cap false) ops).len
        = totalAppended ops - totalRemoved ops) ∧
      (0 < (runOps (RingBuffer.new T cap false) ops).len →
        (runOps (RingBuffer.new T cap false) ops).iter 0 = runModel [] ops) ∧
      (∀ k, 1 ≤ k → k ≤ (runOps (RingBuffer.new T cap false) ops).len →
        (runOps (RingBuffer.new T cap false) ops).iter (-(k : ℤ))
          = (runModel [] ops).drop ((runModel [] ops).length - k)) := by
  have hwf0 : WF (RingBuffer.new T cap false) :=
    ⟨by simp [RingBuffer.new], by simp [RingBuffer.new],
      by simp [RingBuffer.new], h0⟩
  have hlive0 : live (RingBuffer.new T cap false) = [] := by
    simp [live, RingBuffer.new]
  obtain ⟨hwf, hsz, hlive⟩ :=
    runOps_spec ops (RingBuffer.new T cap false) [] hwf0 rfl hlive0 hv
  have hlen : (runOps (RingBuffer.new T cap false) ops).len
      = (runModel [] ops).length := by
    rw [← hlive, live_length]
  obtain ⟨hrem, htot⟩ := runModel_length ops [] hv
  simp only [List.length_nil, Nat.zero_add] at hrem htot
  refine ⟨⟨hrem, by omega⟩, fun _ => (iter_zero hwf).trans hlive,
    fun k hk1 hk2 => ?_⟩
  rw [iter_neg hwf hk1 hk2, hlive, hlen]

/-- Witness for the amended C6: capacity 2, append `[5]`, remove 1, append
`[7, 9]`; the model is `[7, 9]`. -/
theorem c6_append_remove_refinement_witness :
    (totalRemoved [RBOp.app [(5 : ℤ)], RBOp.rem 1, RBOp.app [7, 9]]
        ≤ totalAppended [RBOp.app [(5 : ℤ)], RBOp.rem 1, RBOp.app [7, 9]] ∧
      (runOps (RingBuffer.new ℤ 2 false)
          [RBOp.app [(5 : ℤ)], RBOp.rem 1, RBOp.app [7, 9]]).len
        = totalAppended [RBOp.app [(5 : ℤ)], RBOp.rem 1, RBOp.app [7, 9]]
          - totalRemoved [RBOp.app [(5 : ℤ)], RBOp.rem 1, RBOp.app [7, 9]]) ∧
      (0 < (runOps (RingBuffer.new ℤ 2 false)
          [RBOp.app [(5 : ℤ)], RBOp.rem 1, RBOp.app [7, 9]]).len →
        (runOps (RingBuffer.new ℤ 2 false)
            [RBOp.app [(5 : ℤ)], RBOp.rem 1, RBOp.app [7, 9]]).iter 0
          = runModel [] [RBOp.app [(5 : ℤ)], RBOp.rem 1, RBOp.app [7, 9]]) ∧
      (∀ k, 1 ≤ k →
        k ≤ (runOps (RingBuffer.new ℤ 2 false)
          [RBOp.app [(5 : ℤ)], RBOp.rem 1, RBOp.app [7, 9]]).len →
        (runOps (RingBuffer.new ℤ 2 false)
            [RBOp.app [(5 : ℤ)], RBOp.rem 1, RBOp.app [7, 9]]).iter (-(k : ℤ))
          = (runModel [] [RBOp.app [(5 : ℤ)], RBOp.rem 1,
              RBOp.app [7, 9]]).drop
              ((runModel [] [RBOp.app [(5 : ℤ)], RBOp.rem 1,
                RBOp.app [7, 9]]).length - k)) :=
  c6_append_remove_refinement 2
    [RBOp.app [(5 : ℤ)], RBOp.rem 1, RBOp.app [7, 9]] (by decide)
    (by simp [ValidOps])

/-- C7, counterexample: on the full buffer `[1, 2, 3, 4]` (start 0), a
destination-only `copy_replace` of length 2 copies out the oldest `[1, 2]`
and zero-fills slots 0 and 1; the claim says a following source-only
`copy_replace` of `[9, 9]` writes "into exactly those slots", which would
give data `[9, 9, 3, 4]` — but the code writes into slots 2 and 3 (the
then-oldest elements), giving `[0, 0, 9, 9]`. -/
theorem c7_slide_replace_counterexample :
    let rb : RingBuffer ℤ := ⟨[1, 2, 3, 4], 4, 0, 4⟩
    (rb.copy_replace none 2).2 = [1, 2] ∧
      (rb.copy_replace none 2).1.data = [0, 0, 3, 4] ∧
      ((rb.copy_replace none 2).1.copy_replace (some [9, 9]) 2).1.data
        = [0, 0, 9, 9] ∧
      ((rb.copy_replace none 2).1.copy_replace (some [9, 9]) 2).1.data
        ≠ [9, 9, 3, 4] := by
  refine ⟨by decide, by decide, by decide, by decide⟩

/-- C7, amended: on a full buffer a destination-only `slide_replace` of
length `k` copies out the `k` oldest live elements, keeps `len() = capacity`
throughout, and leaves the freed slots default/zero-filled at the tail of the
live region.  A following source-only `slide_replace` of length `k` writes
its elements into the *next* `k` slots — the ones holding the then-oldest
elements, immediately after the freed ones — so afterwards the live region
ends with the `k` zero-filled slots followed by the `k` new elements. -/
theorem c7_slide_replace_amended {T : Type} [Inhabited T]
    (rb : RingBuffer T) (k : ℕ) (src : List T) (hwf : WF rb)
    (hfull : rb.len = rb.size) (h2k : 2 * k ≤ rb.size)
    (hsrc : src.length = k) :
    (rb.copy_replace none k).2 = (live rb).take k ∧
      (rb.copy_replace none k).1.len = rb.size ∧
      ((rb.copy_replace none k).1.copy_replace (some src) k).1.len
        = rb.size ∧
      live (rb.copy_replace none k).1
        = (live rb).drop k ++ List.replicate k default ∧
      live ((rb.copy_replace none k).1.copy_replace (some src) k).1
        = (live rb).drop (2 * k) ++ List.replicate k default ++ src := by
  have hk : k ≤ rb.size := by omega
  have hout : (rb.copy_replace none k).2 = (live rb).take k :=
    copy_replace_out hwf hfull hk
  have hpay1 : (replacePayload (T := T) none k).length = k := by
    simp [replacePayload]
  have hlive1 : live (rb.copy_replace none k).1
      = (live rb).drop k ++ replacePayload none k :=
    live_copy_replace hwf hfull hk hpay1
  have hwf1 : WF (rb.copy_replace none k).1 :=
    WF_copy_replace hwf hfull hk hpay1
  have hlen1 : (rb.copy_replace none k).1.len = rb.len :=
    (copy_replace_len rb none k).1
  have hsz1 : (rb.copy_replace none k).1.size = rb.size :=
    (copy_replace_len rb none k).2
  have hfull1 : (rb.copy_replace none k).1.len
      = (rb.copy_replace none k).1.size := by
    rw [hlen1, hsz1, hfull]
  have hpay2 : (replacePayload (some src) k).length = k := by
    simp [replacePayload, hsrc]
  have hlive2 : live ((rb.copy_replace none k).1.copy_replace (some src) k).1
      = (live (rb.copy_replace none k).1).drop k
          ++ replacePayload (some src) k :=
    live_copy_replace hwf1 hfull1 (by rw [hsz1]; exact hk) hpay2
  have hlivelen : (live rb).length = rb.size := by
    rw [live_length, hfull]
  refine ⟨hout, by rw [hlen1, hfull],
    by rw [(copy_replace_len (rb.copy_replace none k).1 (some src) k).1,
      hlen1, hfull], by simpa [replacePayload] using hlive1, ?_⟩
  rw [hlive2, hlive1]
  simp only [replacePayload]
  have hcond : k ≤ ((live rb).drop k).length := by
    simp only [List.length_drop, hlivelen]
    omega
  rw [List.drop_append_of_le_length hcond, List.drop_drop,
    show k + k = 2 * k from by omega]

/-- Witness for the amended C7 at the counterexample's buffer with `k = 2`
and source `[9, 9]`. -/
theorem c7_slide_replace_amended_witness :
    let rb : RingBuffer ℤ := ⟨[1, 2, 3, 4], 4, 0, 4⟩
    (rb.copy_replace none 2).2 = (live rb).take 2 ∧
      (rb.copy_replace none 2).1.len = rb.size ∧
      ((rb.copy_replace none 2).1.copy_replace (some [9, 9]) 2).1.len
        = rb.size ∧
      live (rb.copy_replace none 2).1
        = (live rb).drop 2 ++ List.replicate 2 default ∧
      live ((rb.copy_replace none 2).1.copy_replace (some [9, 9]) 2).1
        = (live rb).drop (2 * 2) ++ List.replicate 2 default ++ [9, 9] :=
  c7_slide_replace_amended (⟨[1, 2, 3, 4], 4, 0, 4⟩ : RingBuffer ℤ) 2 [9, 9]
    ⟨by decide, by decide, by decide, by decide⟩ (by decide) (by decide)
    (by decide)

end SpectralDecayModel
